import Mathlib

/-!
Verification development for the PhiFlow pressure-solver core.

This file gives a shallow embedding, in Lean 4, of the sparse pressure
solver of `phi/physics/pressuresolver/sparse.py`, of the SciPy backend
functions it relies on (`phi/math/scipy_backend.py`), and of the struct
context stack (`phi/struct/context.py`), together with theorems settling
the specification claims about them.

Conventions of the embedding:
* numpy float arrays are modelled as functions or lists over a linearly
  ordered commutative ring `α` (instantiated at `ℚ` for the solvers, and
  at `ℤ` when a concrete matrix has to be evaluated by `decide`);
* a numpy `nd`-array of masks is a total function from (extended)
  multi-indices to scalars;
* vectorised numpy writes such as `A[rows, cols] = values` become lists
  of `(row, col, value)` triples folded over a functional matrix;
* Python exceptions are modelled with `Except` / `Option`.
-/

/-! ### Multi-index utilities

`np.ravel_multi_index` and `np.unravel_index` with C ordering, on index
lists paired with a `dimensions` list. -/

/-- C-order linearisation of a multi-index `x` for shape `dims`
(`np.ravel_multi_index`). -/
def ravel : List ℕ → List ℕ → ℕ
  | _ :: ds, a :: as => a * ds.prod + ravel ds as
  | _, _ => 0

/-- Inverse of `ravel`: C-order multi-index of linear index `i` for shape
`dims` (`np.unravel_index`). -/
def unravel : List ℕ → ℕ → List ℕ
  | [], _ => []
  | _ :: ds, i => i / ds.prod :: unravel ds (i % ds.prod)

/-- A multi-index is valid for `dims` when it has one coordinate per
dimension and each coordinate is within range. -/
def validIdx (dims x : List ℕ) : Prop :=
  x.length = dims.length ∧ ∀ k, k < dims.length → x.getD k 0 < dims.getD k 0

instance (dims x : List ℕ) : Decidable (validIdx dims x) := by
  unfold validIdx; infer_instance

theorem unravel_length (dims : List ℕ) (i : ℕ) : (unravel dims i).length = dims.length := by
  induction dims generalizing i with
  | nil => rfl
  | cons d ds ih => simp [unravel, ih]

theorem unravel_valid (dims : List ℕ) (i : ℕ) (h : i < dims.prod) :
    validIdx dims (unravel dims i) := by
  induction dims generalizing i with
  | nil => exact ⟨rfl, by intro k hk; simp at hk⟩
  | cons d ds ih =>
      have hp : 0 < ds.prod := by
        rcases Nat.eq_zero_or_pos ds.prod with h0 | h0
        · simp [List.prod_cons, h0] at h
        · exact h0
      have hmod : i % ds.prod < ds.prod := Nat.mod_lt _ hp
      have hdiv : i / ds.prod < d :=
        Nat.div_lt_of_lt_mul (by simpa [List.prod_cons, Nat.mul_comm] using h)
      obtain ⟨hlen, hcoord⟩ := ih (i % ds.prod) hmod
      refine ⟨by simp [unravel, hlen], ?_⟩
      intro k hk
      cases k with
      | zero => simpa [unravel] using hdiv
      | succ k =>
          have hk' : k < ds.length := by simpa using hk
          simpa [unravel] using hcoord k hk'

theorem ravel_lt (dims x : List ℕ) (h : validIdx dims x) : ravel dims x < dims.prod := by
  induction dims generalizing x with
  | nil =>
      obtain ⟨hlen, _⟩ := h
      cases x with
      | nil => simp [ravel]
      | cons a as => simp at hlen
  | cons d ds ih =>
      obtain ⟨hlen, hcoord⟩ := h
      cases x with
      | nil => simp at hlen
      | cons a as =>
          have ha : a < d := by simpa using hcoord 0 (by simp)
          have has : validIdx ds as := by
            refine ⟨by simpa using hlen, ?_⟩
            intro k hk
            simpa using hcoord (k + 1) (by simpa using Nat.succ_lt_succ hk)
          have hr : ravel ds as < ds.prod := ih as has
          calc a * ds.prod + ravel ds as < a * ds.prod + ds.prod := by omega
            _ = (a + 1) * ds.prod := by ring
            _ ≤ d * ds.prod := Nat.mul_le_mul_right _ (by omega)
            _ = (d :: ds).prod := by simp [List.prod_cons]

theorem ravel_unravel (dims : List ℕ) (i : ℕ) (h : i < dims.prod) :
    ravel dims (unravel dims i) = i := by
  induction dims generalizing i with
  | nil => simp [List.prod_nil] at h; simp [unravel, ravel, h]
  | cons d ds ih =>
      have hp : 0 < ds.prod := by
        rcases Nat.eq_zero_or_pos ds.prod with h0 | h0
        · simp [List.prod_cons, h0] at h
        · exact h0
      have hmod : i % ds.prod < ds.prod := Nat.mod_lt _ hp
      simp only [unravel, ravel, ih (i % ds.prod) hmod]
      rw [Nat.mul_comm]
      exact Nat.div_add_mod i ds.prod

theorem unravel_ravel (dims x : List ℕ) (h : validIdx dims x) :
    unravel dims (ravel dims x) = x := by
  induction dims generalizing x with
  | nil =>
      obtain ⟨hlen, _⟩ := h
      cases x with
      | nil => rfl
      | cons a as => simp at hlen
  | cons d ds ih =>
      obtain ⟨hlen, hcoord⟩ := h
      cases x with
      | nil => simp at hlen
      | cons a as =>
          have has : validIdx ds as := by
            refine ⟨by simpa using hlen, ?_⟩
            intro k hk
            simpa using hcoord (k + 1) (by simpa using Nat.succ_lt_succ hk)
          have hr : ravel ds as < ds.prod := ravel_lt ds as has
          have hp : 0 < ds.prod := by omega
          have hdiv : (a * ds.prod + ravel ds as) / ds.prod = a := by
            rw [Nat.add_comm, Nat.add_mul_div_right _ _ hp, Nat.div_eq_of_lt hr, Nat.zero_add]
          have hmod : (a * ds.prod + ravel ds as) % ds.prod = ravel ds as := by
            rw [Nat.add_comm, Nat.add_mul_mod_self_right]
            exact Nat.mod_eq_of_lt hr
          rw [ravel, unravel, hdiv, hmod, ih as has]

/-! ### Small list helpers for indexed reads and writes -/

theorem getD_set_self {α : Type} (l : List α) (k : ℕ) (v d : α) (h : k < l.length) :
    (l.set k v).getD k d = v := by
  simp [List.getD, List.getElem?_set, h]

theorem getD_set_ne {α : Type} (l : List α) (k m : ℕ) (v d : α) (h : k ≠ m) :
    (l.set k v).getD m d = l.getD m d := by
  simp [List.getD, List.getElem?_set, h]

theorem getD_map {α β : Type} (f : α → β) (l : List α) (k : ℕ) (d : α) (h : k < l.length) :
    (l.map f).getD k (f d) = f (l.getD k d) := by
  simp [List.getD, List.getElem?_map, List.getElem?_eq_getElem, h]

theorem set_getD_self (l : List ℕ) (k : ℕ) (h : k < l.length) :
    l.set k (l.getD k 0) = l := by
  apply List.ext_getElem
  · simp
  · intro n h1 h2
    rcases eq_or_ne k n with rfl | hne
    · rw [List.getElem_set_self]
      simp [List.getD, List.getElem?_eq_getElem, h]
    · rw [List.getElem_set_ne hne]

/-! ### Extended-mask coordinates

The masks handed to `sparse_pressure_matrix` are extended by one ghost
cell per side per axis.  For an interior cell with multi-index `x`, the
slice `center_indices` of the source reads the mask at `x + 1` in every
axis, `upper_indices` reads it at `x + 1` shifted once more along `dim`,
and `lower_indices` reads it at `x + 1` shifted back along `dim`. -/

/-- Extended-mask coordinate of a cell `x` itself (`center_indices`
slice: `slice(1, -1)` in every axis). -/
def extCenter (x : List ℕ) : List ℕ := x.map (· + 1)

/-- Extended-mask coordinate of the upper neighbor of `x` along `dim`
(`upper_indices` slice: `slice(2, None)` in axis `dim`). -/
def extUp (x : List ℕ) (dim : ℕ) : List ℕ :=
  (x.map (· + 1)).set dim (x.getD dim 0 + 2)

/-- Extended-mask coordinate of the lower neighbor of `x` along `dim`
(`lower_indices` slice: `slice(0, -2)` in axis `dim`). -/
def extLow (x : List ℕ) (dim : ℕ) : List ℕ :=
  (x.map (· + 1)).set dim (x.getD dim 0)

/-! ### The sparse pressure matrix builder

Shallow embedding of `sparse_pressure_matrix` and `wrap_or_discard` from
`phi/physics/pressuresolver/sparse.py`.  The scalar type is a generic
linearly ordered commutative ring `α` standing for the numpy float
entries; masks are total functions from extended multi-indices to `α`.
A sparse `lil_matrix` with sequential fancy-indexing assignments is
modelled as a list of `(row, col, value)` writes folded over the zero
matrix, in the exact order the source performs them. -/

section Matrix

variable {α : Type} [LinearOrderedCommRing α]

/-- Matrix of all zeros (`scipy.sparse.lil_matrix((N, N))`). -/
def zeroMatrix : ℕ → ℕ → α := fun _ _ => 0

/-- A single sparse-matrix element assignment `A[r, c] = v`. -/
def matUpdate (M : ℕ → ℕ → α) (r c : ℕ) (v : α) : ℕ → ℕ → α :=
  fun i j => if i = r ∧ j = c then v else M i j

/-- Sequential application of a list of element assignments (the
vectorised `A[rows, cols] = values` writes of the source, in order). -/
def applyWrites (M : ℕ → ℕ → α) (ws : List (ℕ × ℕ × α)) : ℕ → ℕ → α :=
  ws.foldl (fun M w => matUpdate M w.1 w.2.1 w.2.2) M

/-- Per-candidate form of `wrap_or_discard` from the source: given the
candidate neighbor multi-index `indices` (integer entries, since the
shifted coordinate along `dim` may be `-1`), keep it only when the
coordinate along `dim` is in range, and return its linearised index.
The source computes this simultaneously for all cells with
`np.nonzero`/`np.ravel_multi_index`; one candidate at a time the content
is the same.  Note that the `periodic` argument is accepted but never
used, exactly as in the source, whose body only ever discards
out-of-range indices. -/
def wrap_or_discard (indices : List ℤ) (dim : ℕ) (dimensions : List ℕ)
    (periodic : Bool := false) : Option ℕ :=
  if 0 ≤ indices.getD dim 0 ∧ indices.getD dim 0 < (dimensions.getD dim 0 : ℤ)
  then some (ravel dimensions (indices.map Int.toNat))
  else none

/-- Modelled from the spec: `collapsed_gather_nd` from
`phi/struct/tensorop.py` (not part of the provided sources) reads the
per-axis, per-side entry of a possibly collapsed `periodic` structure;
§4.2 of the spec describes periodic wrapping as "independently
toggleable per axis and per side".  We model the periodic structure as
a function from axis and side to `Bool` and the gather as its
application. -/
def collapsed_gather_nd (periodic : ℕ → ℕ → Bool) (dim side : ℕ) : Bool :=
  periodic dim side

/-- Candidate neighbor multi-index `gridpoints ± dim_direction` of the
cell `x`, as integers. -/
def nbrCandidate (x : List ℕ) (dim : ℕ) (δ : ℤ) : List ℤ :=
  (x.map (Int.ofNat ·)).set dim ((x.getD dim 0 : ℤ) + δ)

/-- Stencil value written for the upper neighbor along `dim`
(`stencil_upper = extended_active_mask[upper_indices] * self_active`). -/
def stencil_upper (active : List ℕ → α) (x : List ℕ) (dim : ℕ) : α :=
  active (extUp x dim) * active (extCenter x)

/-- Stencil value written for the lower neighbor along `dim`
(`stencil_lower = extended_active_mask[lower_indices] * self_active`). -/
def stencil_lower (active : List ℕ → α) (x : List ℕ) (dim : ℕ) : α :=
  active (extLow x dim) * active (extCenter x)

/-- The `A[gridpoints_linear[upper_idx], upper_points] = ...` writes of
one loop iteration: for every cell, the candidate `gridpoints +
dim_direction` is passed through `wrap_or_discard`, and the kept ones
produce one off-diagonal write each. -/
def upperWrites (dimensions : List ℕ) (active : List ℕ → α)
    (periodic : ℕ → ℕ → Bool) (dim : ℕ) : List (ℕ × ℕ × α) :=
  (List.range dimensions.prod).filterMap fun i =>
    (wrap_or_discard (nbrCandidate (unravel dimensions i) dim 1) dim dimensions
        (collapsed_gather_nd periodic dim 1)).map
      fun j => (i, j, stencil_upper active (unravel dimensions i) dim)

/-- The `A[gridpoints_linear[lower_idx], lower_points] = ...` writes of
one loop iteration. -/
def lowerWrites (dimensions : List ℕ) (active : List ℕ → α)
    (periodic : ℕ → ℕ → Bool) (dim : ℕ) : List (ℕ × ℕ × α) :=
  (List.range dimensions.prod).filterMap fun i =>
    (wrap_or_discard (nbrCandidate (unravel dimensions i) dim (-1)) dim dimensions
        (collapsed_gather_nd periodic dim 0)).map
      fun j => (i, j, stencil_lower active (unravel dimensions i) dim)

/-- All off-diagonal writes, in source order: for each axis, first the
upper writes, then the lower writes. -/
def offDiagWrites (dimensions : List ℕ) (active : List ℕ → α)
    (periodic : ℕ → ℕ → Bool) : List (ℕ × ℕ × α) :=
  (List.range dimensions.length).flatMap fun dim =>
    upperWrites dimensions active periodic dim ++ lowerWrites dimensions active periodic dim

/-- Accumulated diagonal entry of a cell: the sum over axes of
`stencil_center = -extended_fluid_mask[upper_indices] -
extended_fluid_mask[lower_indices]`. -/
def diagonal_entries (dimensions : List ℕ) (fluid : List ℕ → α) (i : ℕ) : α :=
  ((List.range dimensions.length).map fun dim =>
    -fluid (extUp (unravel dimensions i) dim) - fluid (extLow (unravel dimensions i) dim)).sum

/-- The final diagonal writes
`A[gridpoints_linear, gridpoints_linear] = minimum(diagonal_entries, -1)`. -/
def diagWrites (dimensions : List ℕ) (fluid : List ℕ → α) : List (ℕ × ℕ × α) :=
  (List.range dimensions.prod).map fun i =>
    (i, i, min (diagonal_entries dimensions fluid i) (-1))

/-- Shallow embedding of `sparse_pressure_matrix`: the off-diagonal
stencil writes for every axis followed by the clamped diagonal writes,
applied to the zero matrix. -/
def sparse_pressure_matrix (dimensions : List ℕ) (extended_active_mask : List ℕ → α)
    (extended_fluid_mask : List ℕ → α)
    (periodic : ℕ → ℕ → Bool := fun _ _ => false) : ℕ → ℕ → α :=
  applyWrites
    (applyWrites zeroMatrix (offDiagWrites dimensions extended_active_mask periodic))
    (diagWrites dimensions extended_fluid_mask)

end Matrix

/-! ### Characterising the assembled matrix entries -/

section MatrixLemmas

variable {α : Type} [LinearOrderedCommRing α]

/-- Value of the active mask at the (extended) coordinate of the cell
with linear index `k`. -/
def actC (dims : List ℕ) (active : List ℕ → α) (k : ℕ) : α :=
  active (extCenter (unravel dims k))

theorem applyWrites_not_mem (M : ℕ → ℕ → α) (ws : List (ℕ × ℕ × α)) (i j : ℕ)
    (hk : ¬ ∃ w ∈ ws, w.1 = i ∧ w.2.1 = j) :
    applyWrites M ws i j = M i j := by
  induction ws generalizing M with
  | nil => rfl
  | cons w ws ih =>
      have hhead : ¬ (w.1 = i ∧ w.2.1 = j) := fun h => hk ⟨w, by simp, h⟩
      have htail : ¬ ∃ w' ∈ ws, w'.1 = i ∧ w'.2.1 = j :=
        fun ⟨w', hw', h⟩ => hk ⟨w', by simp [hw'], h⟩
      show applyWrites (matUpdate M w.1 w.2.1 w.2.2) ws i j = M i j
      rw [ih _ htail, matUpdate, if_neg (fun h => hhead ⟨h.1.symm, h.2.symm⟩)]

theorem applyWrites_mem (M : ℕ → ℕ → α) (ws : List (ℕ × ℕ × α)) (f : ℕ → ℕ → α) (i j : ℕ)
    (hw : ∀ w ∈ ws, w.2.2 = f w.1 w.2.1)
    (hk : ∃ w ∈ ws, w.1 = i ∧ w.2.1 = j) :
    applyWrites M ws i j = f i j := by
  induction ws generalizing M with
  | nil => obtain ⟨w, hw', _⟩ := hk; simp at hw'
  | cons w ws ih =>
      show applyWrites (matUpdate M w.1 w.2.1 w.2.2) ws i j = f i j
      by_cases htail : ∃ w' ∈ ws, w'.1 = i ∧ w'.2.1 = j
      · exact ih _ (fun w' hw' => hw w' (by simp [hw'])) htail
      · have hhead : w.1 = i ∧ w.2.1 = j := by
          obtain ⟨w', hw', h⟩ := hk
          rcases List.mem_cons.1 hw' with rfl | hmem
          · exact h
          · exact absurd ⟨w', hmem, h⟩ htail
        rw [applyWrites_not_mem _ _ _ _ htail, matUpdate,
          if_pos ⟨hhead.1.symm, hhead.2.symm⟩, hw w (by simp), hhead.1, hhead.2]

/-- The in-range upper-neighbor-pair relation along axis `dim`: `i` is a
cell with an in-range `+dim` neighbor, and `j` is that neighbor. -/
def UpPair (dims : List ℕ) (dim i j : ℕ) : Prop :=
  ∃ x, validIdx dims x ∧ x.getD dim 0 + 1 < dims.getD dim 0 ∧
    i = ravel dims x ∧ j = ravel dims (x.set dim (x.getD dim 0 + 1))

/-- The in-range lower-neighbor-pair relation along axis `dim`. -/
def LowPair (dims : List ℕ) (dim i j : ℕ) : Prop :=
  ∃ x, validIdx dims x ∧ 1 ≤ x.getD dim 0 ∧
    i = ravel dims x ∧ j = ravel dims (x.set dim (x.getD dim 0 - 1))

theorem nbrCandidate_toNat (x : List ℕ) (dim : ℕ) (δ : ℤ) :
    (nbrCandidate x dim δ).map Int.toNat =
      x.set dim ((x.getD dim 0 : ℤ) + δ).toNat := by
  unfold nbrCandidate
  rw [List.map_set, List.map_map]
  congr 1
  simp [Function.comp_def]

theorem candidate_getD (x : List ℕ) (dim : ℕ) (δ : ℤ) (h : dim < x.length) :
    (nbrCandidate x dim δ).getD dim 0 = (x.getD dim 0 : ℤ) + δ := by
  unfold nbrCandidate
  exact getD_set_self _ _ _ _ (by simpa using h)

theorem wrap_up_eq (dims x : List ℕ) (dim : ℕ) (p : Bool) (hx : validIdx dims x)
    (hdim : dim < dims.length) :
    wrap_or_discard (nbrCandidate x dim 1) dim dims p =
      (if x.getD dim 0 + 1 < dims.getD dim 0
       then some (ravel dims (x.set dim (x.getD dim 0 + 1))) else none) := by
  have hlen : dim < x.length := hx.1 ▸ hdim
  unfold wrap_or_discard
  rw [candidate_getD x dim 1 hlen]
  by_cases hc : x.getD dim 0 + 1 < dims.getD dim 0
  · rw [if_pos (by constructor <;> omega), if_pos hc, nbrCandidate_toNat]
    have ht : ((x.getD dim 0 : ℤ) + 1).toNat = x.getD dim 0 + 1 := by omega
    rw [ht]
  · rw [if_neg (by omega), if_neg hc]

theorem wrap_low_eq (dims x : List ℕ) (dim : ℕ) (p : Bool) (hx : validIdx dims x)
    (hdim : dim < dims.length) :
    wrap_or_discard (nbrCandidate x dim (-1)) dim dims p =
      (if 1 ≤ x.getD dim 0
       then some (ravel dims (x.set dim (x.getD dim 0 - 1))) else none) := by
  have hlen : dim < x.length := hx.1 ▸ hdim
  have hub : x.getD dim 0 < dims.getD dim 0 := hx.2 dim hdim
  unfold wrap_or_discard
  rw [candidate_getD x dim (-1) hlen]
  by_cases hc : 1 ≤ x.getD dim 0
  · rw [if_pos (by constructor <;> omega), if_pos hc, nbrCandidate_toNat]
    have ht : ((x.getD dim 0 : ℤ) + -1).toNat = x.getD dim 0 - 1 := by omega
    rw [ht]
  · rw [if_neg (by omega), if_neg hc]

theorem upperWrites_key_iff (dims : List ℕ) (active : List ℕ → α)
    (periodic : ℕ → ℕ → Bool) (dim i j : ℕ) (hdim : dim < dims.length) :
    (∃ w ∈ upperWrites dims active periodic dim, w.1 = i ∧ w.2.1 = j) ↔
      UpPair dims dim i j := by
  constructor
  · rintro ⟨w, hw, hi, hj⟩
    obtain ⟨a, ha, hfa⟩ := List.mem_filterMap.1 hw
    have haN : a < dims.prod := List.mem_range.1 ha
    have hxa : validIdx dims (unravel dims a) := unravel_valid dims a haN
    rw [wrap_up_eq dims _ dim _ hxa hdim] at hfa
    by_cases hc : (unravel dims a).getD dim 0 + 1 < dims.getD dim 0
    · rw [if_pos hc, Option.map_some', Option.some_inj] at hfa
      subst hfa
      refine ⟨unravel dims a, hxa, hc, ?_, ?_⟩
      · rw [← hi, ravel_unravel dims a haN]
      · rw [← hj]
    · rw [if_neg hc] at hfa; simp at hfa
  · rintro ⟨x, hx, hc, rfl, rfl⟩
    have hiN : ravel dims x < dims.prod := ravel_lt dims x hx
    refine ⟨(ravel dims x, ravel dims (x.set dim (x.getD dim 0 + 1)),
      stencil_upper active x dim), ?_, rfl, rfl⟩
    apply List.mem_filterMap.2
    refine ⟨ravel dims x, List.mem_range.2 hiN, ?_⟩
    rw [unravel_ravel dims x hx, wrap_up_eq dims x dim _ hx hdim, if_pos hc]
    rfl

theorem lowerWrites_key_iff (dims : List ℕ) (active : List ℕ → α)
    (periodic : ℕ → ℕ → Bool) (dim i j : ℕ) (hdim : dim < dims.length) :
    (∃ w ∈ lowerWrites dims active periodic dim, w.1 = i ∧ w.2.1 = j) ↔
      LowPair dims dim i j := by
  constructor
  · rintro ⟨w, hw, hi, hj⟩
    obtain ⟨a, ha, hfa⟩ := List.mem_filterMap.1 hw
    have haN : a < dims.prod := List.mem_range.1 ha
    have hxa : validIdx dims (unravel dims a) := unravel_valid dims a haN
    rw [wrap_low_eq dims _ dim _ hxa hdim] at hfa
    by_cases hc : 1 ≤ (unravel dims a).getD dim 0
    · rw [if_pos hc, Option.map_some', Option.some_inj] at hfa
      subst hfa
      refine ⟨unravel dims a, hxa, hc, ?_, ?_⟩
      · rw [← hi, ravel_unravel dims a haN]
      · rw [← hj]
    · rw [if_neg hc] at hfa; simp at hfa
  · rintro ⟨x, hx, hc, rfl, rfl⟩
    have hiN : ravel dims x < dims.prod := ravel_lt dims x hx
    refine ⟨(ravel dims x, ravel dims (x.set dim (x.getD dim 0 - 1)),
      stencil_lower active x dim), ?_, rfl, rfl⟩
    apply List.mem_filterMap.2
    refine ⟨ravel dims x, List.mem_range.2 hiN, ?_⟩
    rw [unravel_ravel dims x hx, wrap_low_eq dims x dim _ hx hdim, if_pos hc]
    rfl

end MatrixLemmas

section MatrixLemmas2

variable {α : Type} [LinearOrderedCommRing α]

theorem validIdx_set (dims x : List ℕ) (hx : validIdx dims x) (dim v : ℕ)
    (hv : v < dims.getD dim 0) : validIdx dims (x.set dim v) := by
  refine ⟨by simpa using hx.1, ?_⟩
  intro k hk
  rcases eq_or_ne dim k with rfl | hne
  · by_cases hlen : dim < x.length
    · rw [getD_set_self _ _ _ _ hlen]; exact hv
    · rw [List.set_eq_of_length_le (by omega)]; exact hx.2 dim hk
  · rw [getD_set_ne _ _ _ _ _ hne]; exact hx.2 k hk

theorem stencil_upper_eq (dims : List ℕ) (active : List ℕ → α) (x : List ℕ) (dim : ℕ)
    (hx : validIdx dims x) (hdim : dim < dims.length)
    (hc : x.getD dim 0 + 1 < dims.getD dim 0) :
    stencil_upper active x dim =
      actC dims active (ravel dims x) *
        actC dims active (ravel dims (x.set dim (x.getD dim 0 + 1))) := by
  have hx' : validIdx dims (x.set dim (x.getD dim 0 + 1)) :=
    validIdx_set dims x hx dim _ hc
  unfold actC
  rw [unravel_ravel dims x hx, unravel_ravel dims _ hx']
  unfold stencil_upper extCenter extUp
  have h2 : x.getD dim 0 + 1 + 1 = x.getD dim 0 + 2 := by omega
  rw [List.map_set, h2, mul_comm]

theorem stencil_lower_eq (dims : List ℕ) (active : List ℕ → α) (x : List ℕ) (dim : ℕ)
    (hx : validIdx dims x) (hdim : dim < dims.length)
    (hc : 1 ≤ x.getD dim 0) :
    stencil_lower active x dim =
      actC dims active (ravel dims x) *
        actC dims active (ravel dims (x.set dim (x.getD dim 0 - 1))) := by
  have hub : x.getD dim 0 < dims.getD dim 0 := hx.2 dim hdim
  have hx' : validIdx dims (x.set dim (x.getD dim 0 - 1)) :=
    validIdx_set dims x hx dim _ (by omega)
  unfold actC
  rw [unravel_ravel dims x hx, unravel_ravel dims _ hx']
  unfold stencil_lower extCenter extLow
  have h2 : x.getD dim 0 - 1 + 1 = x.getD dim 0 := by omega
  rw [List.map_set, h2, mul_comm]

theorem offDiagWrites_value (dims : List ℕ) (active : List ℕ → α)
    (periodic : ℕ → ℕ → Bool) :
    ∀ w ∈ offDiagWrites dims active periodic,
      w.2.2 = actC dims active w.1 * actC dims active w.2.1 := by
  intro w hw
  obtain ⟨dim, hdm, hw2⟩ := List.mem_flatMap.1 hw
  have hdim : dim < dims.length := List.mem_range.1 hdm
  rcases List.mem_append.1 hw2 with h | h
  · obtain ⟨a, ha, hfa⟩ := List.mem_filterMap.1 h
    have haN : a < dims.prod := List.mem_range.1 ha
    have hxa : validIdx dims (unravel dims a) := unravel_valid dims a haN
    rw [wrap_up_eq dims _ dim _ hxa hdim] at hfa
    by_cases hc : (unravel dims a).getD dim 0 + 1 < dims.getD dim 0
    · rw [if_pos hc, Option.map_some', Option.some_inj] at hfa
      subst hfa
      show stencil_upper active (unravel dims a) dim = _
      rw [stencil_upper_eq dims active _ dim hxa hdim hc, ravel_unravel dims a haN]
    · rw [if_neg hc] at hfa; simp at hfa
  · obtain ⟨a, ha, hfa⟩ := List.mem_filterMap.1 h
    have haN : a < dims.prod := List.mem_range.1 ha
    have hxa : validIdx dims (unravel dims a) := unravel_valid dims a haN
    rw [wrap_low_eq dims _ dim _ hxa hdim] at hfa
    by_cases hc : 1 ≤ (unravel dims a).getD dim 0
    · rw [if_pos hc, Option.map_some', Option.some_inj] at hfa
      subst hfa
      show stencil_lower active (unravel dims a) dim = _
      rw [stencil_lower_eq dims active _ dim hxa hdim hc, ravel_unravel dims a haN]
    · rw [if_neg hc] at hfa; simp at hfa

theorem lowPair_iff_upPair (dims : List ℕ) (dim i j : ℕ) (hdim : dim < dims.length) :
    LowPair dims dim i j ↔ UpPair dims dim j i := by
  constructor
  · rintro ⟨x, hx, hc, rfl, rfl⟩
    have hxlen : dim < x.length := by rw [hx.1]; exact hdim
    have hub : x.getD dim 0 < dims.getD dim 0 := hx.2 dim hdim
    have hy : validIdx dims (x.set dim (x.getD dim 0 - 1)) :=
      validIdx_set dims x hx dim _ (by omega)
    refine ⟨x.set dim (x.getD dim 0 - 1), hy, ?_, rfl, ?_⟩
    · rw [getD_set_self _ _ _ _ hxlen]; omega
    · congr 1
      rw [getD_set_self _ _ _ _ hxlen, List.set_set]
      have h1 : x.getD dim 0 - 1 + 1 = x.getD dim 0 := by omega
      rw [h1, set_getD_self x dim hxlen]
  · rintro ⟨x, hx, hc, rfl, rfl⟩
    have hxlen : dim < x.length := by rw [hx.1]; exact hdim
    have hz : validIdx dims (x.set dim (x.getD dim 0 + 1)) :=
      validIdx_set dims x hx dim _ hc
    refine ⟨x.set dim (x.getD dim 0 + 1), hz, ?_, rfl, ?_⟩
    · rw [getD_set_self _ _ _ _ hxlen]; omega
    · congr 1
      rw [getD_set_self _ _ _ _ hxlen, List.set_set]
      have h1 : x.getD dim 0 + 1 - 1 = x.getD dim 0 := by omega
      rw [h1, set_getD_self x dim hxlen]

theorem offKey_iff (dims : List ℕ) (active : List ℕ → α) (periodic : ℕ → ℕ → Bool)
    (i j : ℕ) :
    (∃ w ∈ offDiagWrites dims active periodic, w.1 = i ∧ w.2.1 = j) ↔
      ∃ dim, dim < dims.length ∧ (UpPair dims dim i j ∨ LowPair dims dim i j) := by
  constructor
  · rintro ⟨w, hw, hkey⟩
    obtain ⟨dim, hdm, hw2⟩ := List.mem_flatMap.1 hw
    have hdim : dim < dims.length := List.mem_range.1 hdm
    rcases List.mem_append.1 hw2 with h | h
    · exact ⟨dim, hdim,
        Or.inl ((upperWrites_key_iff dims active periodic dim i j hdim).1 ⟨w, h, hkey⟩)⟩
    · exact ⟨dim, hdim,
        Or.inr ((lowerWrites_key_iff dims active periodic dim i j hdim).1 ⟨w, h, hkey⟩)⟩
  · rintro ⟨dim, hdim, h | h⟩
    · obtain ⟨w, hw, hkey⟩ := (upperWrites_key_iff dims active periodic dim i j hdim).2 h
      exact ⟨w, List.mem_flatMap.2
        ⟨dim, List.mem_range.2 hdim, List.mem_append.2 (Or.inl hw)⟩, hkey⟩
    · obtain ⟨w, hw, hkey⟩ := (lowerWrites_key_iff dims active periodic dim i j hdim).2 h
      exact ⟨w, List.mem_flatMap.2
        ⟨dim, List.mem_range.2 hdim, List.mem_append.2 (Or.inr hw)⟩, hkey⟩

theorem offMatrix_eq_of_pair (dims : List ℕ) (active : List ℕ → α)
    (periodic : ℕ → ℕ → Bool) (i j : ℕ)
    (h : ∃ dim, dim < dims.length ∧ (UpPair dims dim i j ∨ LowPair dims dim i j)) :
    applyWrites zeroMatrix (offDiagWrites dims active periodic) i j =
      actC dims active i * actC dims active j :=
  applyWrites_mem zeroMatrix _ (fun a b => actC dims active a * actC dims active b) i j
    (offDiagWrites_value dims active periodic)
    ((offKey_iff dims active periodic i j).2 h)

theorem offMatrix_eq_zero (dims : List ℕ) (active : List ℕ → α)
    (periodic : ℕ → ℕ → Bool) (i j : ℕ)
    (h : ¬ ∃ dim, dim < dims.length ∧ (UpPair dims dim i j ∨ LowPair dims dim i j)) :
    applyWrites zeroMatrix (offDiagWrites dims active periodic) i j = 0 :=
  applyWrites_not_mem zeroMatrix _ i j
    (fun hk => h ((offKey_iff dims active periodic i j).1 hk))

theorem diagKey_iff (dims : List ℕ) (fluid : List ℕ → α) (i j : ℕ) :
    (∃ w ∈ diagWrites dims fluid, w.1 = i ∧ w.2.1 = j) ↔ i < dims.prod ∧ j = i := by
  constructor
  · rintro ⟨w, hw, hi, hj⟩
    obtain ⟨k, hk, rfl⟩ := List.mem_map.1 hw
    exact ⟨hi ▸ List.mem_range.1 hk, by rw [← hi, ← hj]⟩
  · rintro ⟨hi, hj⟩
    exact ⟨(i, i, min (diagonal_entries dims fluid i) (-1)),
      List.mem_map.2 ⟨i, List.mem_range.2 hi, rfl⟩, rfl, hj.symm⟩

theorem spm_offdiag (dims : List ℕ) (active fluid : List ℕ → α)
    (periodic : ℕ → ℕ → Bool) (i j : ℕ) (hij : i ≠ j) :
    sparse_pressure_matrix dims active fluid periodic i j =
      applyWrites zeroMatrix (offDiagWrites dims active periodic) i j := by
  unfold sparse_pressure_matrix
  exact applyWrites_not_mem _ _ i j
    (fun hk => hij (((diagKey_iff dims fluid i j).1 hk).2.symm))

theorem spm_diag (dims : List ℕ) (active fluid : List ℕ → α)
    (periodic : ℕ → ℕ → Bool) (i : ℕ) (hi : i < dims.prod) :
    sparse_pressure_matrix dims active fluid periodic i i =
      min (diagonal_entries dims fluid i) (-1) := by
  unfold sparse_pressure_matrix
  exact applyWrites_mem _ _ (fun r _ => min (diagonal_entries dims fluid r) (-1)) i i
    (by rintro w hw
        obtain ⟨k, hk, rfl⟩ := List.mem_map.1 hw
        rfl)
    ((diagKey_iff dims fluid i i).2 ⟨hi, rfl⟩)

end MatrixLemmas2

/-! ### Claims about the operator matrix -/

/-- C1: on the fully active `1×6` grid with the periodic flag set for
axis 1, the assembled matrix does NOT contain the wrap neighbors the
claim promises: row 0 has the single off-diagonal nonzero `A[0,1] = 1`
and in particular `A[0,5] = 0` (the wrap neighbor entry is absent), and
likewise row 5 only has `A[5,4] = 1` with `A[5,0] = 0`; even with the
periodic flag set for every axis and side the wrap entry stays 0,
because `wrap_or_discard` ignores its `periodic` argument and always
discards out-of-range neighbor indices. -/
theorem C1_wrap_neighbors_missing :
    (sparse_pressure_matrix [1, 6] (fun _ => (1:ℤ)) (fun _ => 1)
      (fun d _ => decide (d = 1)) 0 1 = 1) ∧
    (sparse_pressure_matrix [1, 6] (fun _ => (1:ℤ)) (fun _ => 1)
      (fun d _ => decide (d = 1)) 0 2 = 0) ∧
    (sparse_pressure_matrix [1, 6] (fun _ => (1:ℤ)) (fun _ => 1)
      (fun d _ => decide (d = 1)) 0 3 = 0) ∧
    (sparse_pressure_matrix [1, 6] (fun _ => (1:ℤ)) (fun _ => 1)
      (fun d _ => decide (d = 1)) 0 4 = 0) ∧
    (sparse_pressure_matrix [1, 6] (fun _ => (1:ℤ)) (fun _ => 1)
      (fun d _ => decide (d = 1)) 0 5 = 0) ∧
    (sparse_pressure_matrix [1, 6] (fun _ => (1:ℤ)) (fun _ => 1)
      (fun d _ => decide (d = 1)) 5 4 = 1) ∧
    (sparse_pressure_matrix [1, 6] (fun _ => (1:ℤ)) (fun _ => 1)
      (fun d _ => decide (d = 1)) 5 0 = 0) ∧
    (sparse_pressure_matrix [1, 6] (fun _ => (1:ℤ)) (fun _ => 1)
      (fun _ _ => true) 0 5 = 0) := by
  refine ⟨?_, ?_, ?_, ?_, ?_, ?_, ?_, ?_⟩ <;> decide

/-- C3: the matrix assembled by `sparse_pressure_matrix` is symmetric,
`A[i,j] = A[j,i]` for all rows and columns — in particular for the
interior `i ≠ j` of the claim.  Off-diagonal entries exist exactly for
in-range neighbor pairs, a symmetric relation, and both orientations
carry the same product of active-mask values. -/
theorem C3_matrix_symmetric (dims : List ℕ) (active fluid : List ℕ → ℚ)
    (periodic : ℕ → ℕ → Bool) (i j : ℕ) :
    sparse_pressure_matrix dims active fluid periodic i j =
      sparse_pressure_matrix dims active fluid periodic j i := by
  rcases eq_or_ne i j with rfl | hij
  · rfl
  · rw [spm_offdiag dims active fluid periodic i j hij,
      spm_offdiag dims active fluid periodic j i hij.symm]
    by_cases hkey : ∃ dim, dim < dims.length ∧
        (UpPair dims dim i j ∨ LowPair dims dim i j)
    · have hkey' : ∃ dim, dim < dims.length ∧
          (UpPair dims dim j i ∨ LowPair dims dim j i) := by
        obtain ⟨dim, hdim, h | h⟩ := hkey
        · exact ⟨dim, hdim, Or.inr ((lowPair_iff_upPair dims dim j i hdim).2 h)⟩
        · exact ⟨dim, hdim, Or.inl ((lowPair_iff_upPair dims dim i j hdim).1 h)⟩
      rw [offMatrix_eq_of_pair dims active periodic i j hkey,
        offMatrix_eq_of_pair dims active periodic j i hkey', mul_comm]
    · have hkey' : ¬ ∃ dim, dim < dims.length ∧
          (UpPair dims dim j i ∨ LowPair dims dim j i) := by
        rintro ⟨dim, hdim, h | h⟩
        · exact hkey ⟨dim, hdim, Or.inr ((lowPair_iff_upPair dims dim i j hdim).2 h)⟩
        · exact hkey ⟨dim, hdim, Or.inl ((lowPair_iff_upPair dims dim j i hdim).1 h)⟩
      rw [offMatrix_eq_zero dims active periodic i j hkey,
        offMatrix_eq_zero dims active periodic j i hkey']

/-- C4: every diagonal entry of the assembled matrix is clamped to at
most `-1`, and a cell all of whose neighbors carry zero active mask and
zero accessible (fluid) mask still receives diagonal exactly `-1`. -/
theorem C4_diagonal_clamped (dims : List ℕ) (active fluid : List ℕ → ℚ)
    (periodic : ℕ → ℕ → Bool) (i : ℕ) (hi : i < dims.prod) :
    sparse_pressure_matrix dims active fluid periodic i i ≤ -1 ∧
    ((∀ dim, dim < dims.length →
        active (extUp (unravel dims i) dim) = 0 ∧
        active (extLow (unravel dims i) dim) = 0 ∧
        fluid (extUp (unravel dims i) dim) = 0 ∧
        fluid (extLow (unravel dims i) dim) = 0) →
      sparse_pressure_matrix dims active fluid periodic i i = -1) := by
  rw [spm_diag dims active fluid periodic i hi]
  constructor
  · exact min_le_right _ _
  · intro h
    have hz : diagonal_entries dims fluid i = 0 := by
      unfold diagonal_entries
      apply List.sum_eq_zero
      intro v hv
      obtain ⟨dim, hdm, rfl⟩ := List.mem_map.1 hv
      have hdim : dim < dims.length := List.mem_range.1 hdm
      obtain ⟨_, _, hfu, hfl⟩ := h dim hdim
      rw [hfu, hfl]
      ring
    rw [hz]
    exact min_eq_right (by norm_num)

/-- Witness for C4 at the concrete input `dims = [2]`, both masks
identically zero, cell `i = 0`. -/
theorem C4_diagonal_clamped_witness :
    sparse_pressure_matrix [2] (fun _ => (0:ℚ)) (fun _ => 0) (fun _ _ => false) 0 0 ≤ -1 ∧
    sparse_pressure_matrix [2] (fun _ => (0:ℚ)) (fun _ => 0) (fun _ _ => false) 0 0 = -1 := by
  have h := C4_diagonal_clamped [2] (fun _ => 0) (fun _ => 0) (fun _ _ => false) 0 (by norm_num)
  exact ⟨h.1, h.2 (fun dim hdim => ⟨rfl, rfl, rfl, rfl⟩)⟩

/-- C5: for a cell `x` with an in-range neighbor along axis `dim`, the
off-diagonal entries in both orientations equal the product of the
active-mask values of the two cells, and a nonzero off-diagonal entry
forces both cells to have nonzero active mask. -/
theorem C5_offdiag_active_product (dims : List ℕ) (active fluid : List ℕ → ℚ)
    (periodic : ℕ → ℕ → Bool) (x : List ℕ) (dim : ℕ)
    (hx : validIdx dims x) (hdim : dim < dims.length)
    (hc : x.getD dim 0 + 1 < dims.getD dim 0) :
    sparse_pressure_matrix dims active fluid periodic (ravel dims x)
        (ravel dims (x.set dim (x.getD dim 0 + 1))) =
      active (extCenter x) * active (extCenter (x.set dim (x.getD dim 0 + 1))) ∧
    sparse_pressure_matrix dims active fluid periodic
        (ravel dims (x.set dim (x.getD dim 0 + 1))) (ravel dims x) =
      active (extCenter x) * active (extCenter (x.set dim (x.getD dim 0 + 1))) ∧
    (sparse_pressure_matrix dims active fluid periodic (ravel dims x)
        (ravel dims (x.set dim (x.getD dim 0 + 1))) ≠ 0 →
      active (extCenter x) ≠ 0 ∧
        active (extCenter (x.set dim (x.getD dim 0 + 1))) ≠ 0) := by
  have hxlen : dim < x.length := by rw [hx.1]; exact hdim
  have hx' : validIdx dims (x.set dim (x.getD dim 0 + 1)) :=
    validIdx_set dims x hx dim _ hc
  have hne : ravel dims x ≠ ravel dims (x.set dim (x.getD dim 0 + 1)) := by
    intro he
    have h1 := unravel_ravel dims x hx
    have h2 := unravel_ravel dims _ hx'
    have hxx : x = x.set dim (x.getD dim 0 + 1) := by
      calc x = unravel dims (ravel dims x) := h1.symm
        _ = unravel dims (ravel dims (x.set dim (x.getD dim 0 + 1))) := by rw [he]
        _ = x.set dim (x.getD dim 0 + 1) := h2
    have h3 : x.getD dim 0 = (x.set dim (x.getD dim 0 + 1)).getD dim 0 := by
      conv_lhs => rw [hxx]
    rw [getD_set_self _ _ _ _ hxlen] at h3
    omega
  have hpair : ∃ d, d < dims.length ∧
      (UpPair dims d (ravel dims x) (ravel dims (x.set dim (x.getD dim 0 + 1))) ∨
       LowPair dims d (ravel dims x) (ravel dims (x.set dim (x.getD dim 0 + 1)))) :=
    ⟨dim, hdim, Or.inl ⟨x, hx, hc, rfl, rfl⟩⟩
  have hval : sparse_pressure_matrix dims active fluid periodic (ravel dims x)
      (ravel dims (x.set dim (x.getD dim 0 + 1))) =
      active (extCenter x) * active (extCenter (x.set dim (x.getD dim 0 + 1))) := by
    rw [spm_offdiag dims active fluid periodic _ _ hne,
      offMatrix_eq_of_pair dims active periodic _ _ hpair]
    unfold actC
    rw [unravel_ravel dims x hx, unravel_ravel dims _ hx']
  refine ⟨hval, ?_, ?_⟩
  · rw [C3_matrix_symmetric]
    exact hval
  · intro hnz
    rw [hval] at hnz
    exact ⟨left_ne_zero_of_mul hnz, right_ne_zero_of_mul hnz⟩

/-- Witness for C5 at the concrete input `dims = [2]`, both masks
identically one, cell `x = [0]`, axis `dim = 0`. -/
theorem C5_offdiag_active_product_witness :
    sparse_pressure_matrix [2] (fun _ => (1:ℚ)) (fun _ => 1) (fun _ _ => false)
        (ravel [2] [0]) (ravel [2] ([0].set 0 ([0].getD 0 0 + 1))) =
      (fun _ => (1:ℚ)) (extCenter [0]) *
        (fun _ => (1:ℚ)) (extCenter ([0].set 0 ([0].getD 0 0 + 1))) ∧
    sparse_pressure_matrix [2] (fun _ => (1:ℚ)) (fun _ => 1) (fun _ _ => false)
        (ravel [2] ([0].set 0 ([0].getD 0 0 + 1))) (ravel [2] [0]) =
      (fun _ => (1:ℚ)) (extCenter [0]) *
        (fun _ => (1:ℚ)) (extCenter ([0].set 0 ([0].getD 0 0 + 1))) := by
  have h := C5_offdiag_active_product [2] (fun _ => 1) (fun _ => 1) (fun _ _ => false)
    [0] 0 (by decide) (by decide) (by decide)
  exact ⟨h.1, h.2.1⟩

/-! ### SparseCG construction (`SparseCG.__init__`)

The constructor arguments `gradient_accuracy` and
`max_gradient_iterations` admit the sentinel strings `'same'` (both) and
`'mirror'` (the latter) besides numbers; they are embedded as sum types,
which also discharges the `isinstance` assertions of the source.  The
source allows `max_iterations = None` for an unbounded loop; the model
uses a numeric cap throughout (the claims under study all concern the
capped behaviour). -/

/-- Argument type of `gradient_accuracy`: the string `'same'` or a number. -/
inductive GradientAccuracyArg where
  | same : GradientAccuracyArg
  | num (q : ℚ) : GradientAccuracyArg

/-- Argument type of `max_gradient_iterations`: `'same'`, `'mirror'` or a
number. -/
inductive MaxGradientIterationsArg where
  | same : MaxGradientIterationsArg
  | mirror : MaxGradientIterationsArg
  | num (n : ℕ) : MaxGradientIterationsArg

/-- Resolved value stored in `self.max_gradient_iterations`: the string
`'mirror'` or a number. -/
inductive MaxGradientIterationsField where
  | mirror : MaxGradientIterationsField
  | num (n : ℕ) : MaxGradientIterationsField
deriving DecidableEq

/-- The state of a constructed `SparseCG` solver. -/
structure SparseCGConfig where
  accuracy : ℚ
  gradient_accuracy : ℚ
  max_iterations : ℕ
  max_gradient_iterations : MaxGradientIterationsField
  autodiff : Bool
deriving DecidableEq

/-- Shallow embedding of `SparseCG.__init__`.  The `isinstance` asserts
on `accuracy`/`gradient_accuracy`/`max_gradient_iterations` are
discharged by the argument types; the only remaining `assert` of the
source sits in the branch where `max_gradient_iterations` is numeric and
fails there when `autodiff` is set. -/
def SparseCG_init (accuracy : ℚ) (gradient_accuracy : GradientAccuracyArg)
    (max_iterations : ℕ) (max_gradient_iterations : MaxGradientIterationsArg)
    (autodiff : Bool) : Except String SparseCGConfig :=
  let ga := match gradient_accuracy with
    | .same => accuracy
    | .num q => q
  match max_gradient_iterations with
  | .same => .ok ⟨accuracy, ga, max_iterations, .num max_iterations, autodiff⟩
  | .mirror => .ok ⟨accuracy, ga, max_iterations, .mirror, autodiff⟩
  | .num n =>
      if autodiff then .error "Cannot specify max_gradient_iterations when autodiff=True"
      else .ok ⟨accuracy, ga, max_iterations, .num n, autodiff⟩

/-- C2 counterexample: constructing `SparseCG` with
`max_gradient_iterations='mirror'` and `autodiff=True` does NOT raise —
it succeeds, because the `assert not autodiff` of the source sits only
in the numeric `max_gradient_iterations` branch. -/
theorem C2_mirror_autodiff_accepted :
    SparseCG_init (1/100000) .same 2000 .mirror true =
      Except.ok ⟨1/100000, 1/100000, 2000, .mirror, true⟩ := rfl

/-- C2 (amended): an explicitly numeric `max_gradient_iterations`
combined with `autodiff=True` is rejected eagerly at construction, while
`'mirror'` with `autodiff=True` is accepted without error. -/
theorem C2_numeric_mgi_autodiff_rejected (accuracy : ℚ)
    (gradient_accuracy : GradientAccuracyArg) (max_iterations n : ℕ) :
    SparseCG_init accuracy gradient_accuracy max_iterations (.num n) true =
      Except.error "Cannot specify max_gradient_iterations when autodiff=True" ∧
    SparseCG_init accuracy gradient_accuracy max_iterations .mirror true =
      Except.ok ⟨accuracy,
        (match gradient_accuracy with | .same => accuracy | .num q => q),
        max_iterations, .mirror, true⟩ := by
  constructor
  · rfl
  · cases gradient_accuracy <;> rfl

/-! ### The struct context stack (`phi/struct/context.py`)

The global list `_STRUCT_CONTEXT_STACK` holds either the string
`'unsafe'` or an `_ItemTypeContext`; the two context managers append an
entry on entry and `pop(-1)` in a `finally` block.  A context-manager
body is modelled as a state transformer on the stack returning
`Except ε a` (exceptions propagate, the `finally` runs either way). -/

/-- An entry of the struct context stack: a string tag (the source
pushes the string given to `_struct_context`, e.g. by `unsafe()`), or an
`_ItemTypeContext` holding an optional item condition. -/
inductive StructContextEntry (I : Type) where
  | tag (s : String) : StructContextEntry I
  | itemType (item_condition : Option (I → Bool)) : StructContextEntry I

/-- Shallow embedding of the `_struct_context` context manager: append
the object to the stack, run the body, and `pop(-1)` in `finally`
fashion — whether the body finished normally (`Except.ok`) or raised
(`Except.error`), the popped result and the body outcome are returned
together. -/
def _struct_context {I ε a : Type} (object : StructContextEntry I)
    (body : List (StructContextEntry I) → Except ε a × List (StructContextEntry I)) :
    List (StructContextEntry I) → Except ε a × List (StructContextEntry I) :=
  fun stack =>
    ((body (stack ++ [object])).1, (body (stack ++ [object])).2.dropLast)

/-- Models `unsafe()` of the source: a context manager pushing the
string tag onto the struct context stack. -/
def skipValidateContext {I : Type}
    (body : List (StructContextEntry I) → Except String Unit × List (StructContextEntry I)) :
    List (StructContextEntry I) → Except String Unit × List (StructContextEntry I) :=
  _struct_context (.tag "unsafe") body

/-- Models `only(item_type)` of the source: a context manager pushing an
`_ItemTypeContext` onto the struct context stack. -/
def only {I : Type} (item_type : Option (I → Bool))
    (body : List (StructContextEntry I) → Except String Unit × List (StructContextEntry I)) :
    List (StructContextEntry I) → Except String Unit × List (StructContextEntry I) :=
  _struct_context (.itemType item_type) body

/-- Shallow embedding of `skip_validate`: whether the string tag pushed
by `unsafe()` occurs anywhere in the stack. -/
def skip_validate {I : Type} (stack : List (StructContextEntry I)) : Bool :=
  stack.any fun c => match c with
    | .tag s => s == "unsafe"
    | _ => false

/-- Shallow embedding of `context_item_condition`: an item passes when
every `_ItemTypeContext` on the stack accepts it (`condition_check`
returns `True` for a `None` condition). -/
def context_item_condition {I : Type} (stack : List (StructContextEntry I)) (item : I) : Bool :=
  stack.all fun c => match c with
    | .itemType (some cond) => cond item
    | _ => true

/-- C10: a `_struct_context` use (hence `unsafe()` and `only(...)`)
whose body leaves the stack as it received it — which every nest of
balanced context-manager uses does — restores the global stack to
exactly its prior state on exit, both when the body completes normally
and when it raises (the body outcome, `ok` or `error`, is propagated
unchanged while the `finally` pop undoes the push); the pushed entry is
visible to the body, which receives exactly `stack ++ [object]`. -/
theorem C10_context_stack_restored {I ε a : Type} (object : StructContextEntry I)
    (body : List (StructContextEntry I) → Except ε a × List (StructContextEntry I))
    (stack : List (StructContextEntry I))
    (hbody : (body (stack ++ [object])).2 = stack ++ [object]) :
    (_struct_context object body stack).2 = stack ∧
    (_struct_context object body stack).1 = (body (stack ++ [object])).1 := by
  unfold _struct_context
  refine ⟨?_, rfl⟩
  rw [hbody]
  simp

/-- Witness for C10 at concrete inputs: a body that raises while
preserving the stack, and a body that completes normally, both run by
`skipValidateContext` (the `unsafe()` context manager) on the empty
stack; in both cases the stack is restored to `[]` and the outcome is
propagated, and inside the scope `skip_validate` observes the tag. -/
theorem C10_context_stack_restored_witness :
    ((skipValidateContext (I := ℕ) (fun s => (Except.error "boom", s))) []).2 = [] ∧
    ((skipValidateContext (I := ℕ) (fun s => (Except.error "boom", s))) []).1 =
      Except.error "boom" ∧
    ((skipValidateContext (I := ℕ) (fun s => (Except.ok (), s))) []).2 = [] ∧
    ((skipValidateContext (I := ℕ) (fun s => (Except.ok (), s))) []).1 = Except.ok () ∧
    skip_validate ([] ++ [StructContextEntry.tag (I := ℕ) "unsafe"]) = true ∧
    skip_validate ([] : List (StructContextEntry ℕ)) = false := by
  have h1 := C10_context_stack_restored (I := ℕ) (ε := String) (a := Unit)
    (.tag "unsafe") (fun s => (Except.error "boom", s)) [] rfl
  have h2 := C10_context_stack_restored (I := ℕ) (ε := String) (a := Unit)
    (.tag "unsafe") (fun s => (Except.ok (), s)) [] rfl
  exact ⟨h1.1, h1.2, h2.1, h2.2, rfl, rfl⟩

/-! ### Tensors, the fluid domain, and the direct solver

A numpy float array is a flat rational data list together with its
shape.  `np.reshape` raises on a size mismatch; reshapes therefore live
in `Option`.  The `FluidDomain` collaborator of `solver_api.py` is not
among the provided sources and is modelled from the spec. -/

/-- A dense numpy array: flat C-order data plus shape. -/
structure Tensor where
  shape : List ℕ
  data : List ℚ
  sized : data.length = shape.prod

/-- Modelled from the spec: the `FluidDomain` collaborator
(`solver_api.py`, not among the provided sources) bundles the
active/accessible masks of the domain; spec §6 describes its accessors
as returning the masks pre-extended by one ghost cell per spatial axis
per side.  The two fields are those already-extended masks. -/
structure FluidDomain where
  active_ext : List ℕ → ℚ
  accessible_ext : List ℕ → ℚ

/-- Modelled from the spec: `domain.active_tensor(extend=1)` returns the
extended active mask (spec §6). -/
def active_tensor (domain : FluidDomain) : List ℕ → ℚ :=
  domain.active_ext

/-- Modelled from the spec: `domain.accessible_tensor(extend=1)` returns
the extended accessible mask (spec §6). -/
def accessible_tensor (domain : FluidDomain) : List ℕ → ℚ :=
  domain.accessible_ext

/-- Row decomposition `array.reshape([-1, n])`: the rows of length `n`
taken in order (meaningful when `n` divides the data length, as numpy
requires). -/
def chunkRows (n : ℕ) (l : List ℚ) : List (List ℚ) :=
  (List.range (l.length / n)).map fun r => (l.drop (r * n)).take n

/-- Modelled from the spec: `scipy.sparse.linalg.spsolve` is an external
direct solver (the backend is an out-of-scope collaborator, spec §1);
only its contract of returning the solution vector of length `N` of the
`N×N` system matters here, so it is modelled as a concrete
diagonal-solve returning that length. -/
def spsolve (A : ℕ → ℕ → ℚ) (n : ℕ) (b : List ℚ) : List ℚ :=
  (List.range n).map fun i => b.getD i 0 / A i i

/-- Shallow embedding of the inner `np_solve_p` of `SparseSciPy.solve`:
reshape the divergence to `(-1, N)` rows, solve each row, and reshape
the stacked solutions back to the divergence shape.  numpy raises when
`N` is 0 or does not divide the data size, or when the final reshape
does not match; those paths return `none`.  The closing shape check
also plays the role of the `py_func` shape assertion. -/
def np_solve_p (A : ℕ → ℕ → ℚ) (n : ℕ) (shape_out : List ℕ) (div : List ℚ) : Option Tensor :=
  if 0 < n ∧ n ∣ div.length then
    if h : ((chunkRows n div).map (spsolve A n)).flatten.length = shape_out.prod then
      some ⟨shape_out, ((chunkRows n div).map (spsolve A n)).flatten, h⟩
    else none
  else none

/-- Shallow embedding of `SparseSciPy.solve`: read the dimensions from
`divergence.shape[1:-1]`, build the operator matrix from the domain
masks, and solve per batch row; the `pressure_guess` parameter is
accepted but never read, and the iteration count is `None`. -/
def SparseSciPy_solve (divergence : Tensor) (domain : FluidDomain)
    (pressure_guess : Option Tensor) : Option (Tensor × Option ℕ) :=
  (np_solve_p
      (sparse_pressure_matrix ((divergence.shape.drop 1).dropLast)
        (active_tensor domain) (accessible_tensor domain))
      ((divergence.shape.drop 1).dropLast).prod divergence.shape divergence.data).map
    fun p => (p, none)

/-! ### The conjugate-gradient solver

`SciPyBackend.while_loop` is translated from `scipy_backend.py`: run the
body while the condition holds, breaking once `maximum_iterations` body
evaluations have happened.  `conjugate_gradient` itself lives in
`phi/math/blas.py`, which is not among the provided sources, and is
modelled from the spec (§4.3, §5): batched preconditioner-free CG in
lockstep across the batch with a shared iteration counter, terminating
when the maximum per-batch-row per-cell residual drops to `accuracy` or
the cap is reached.  The unbounded `max_iterations=None` mode is outside
the model. -/

/-- Translation of `SciPyBackend.while_loop` with a numeric
`maximum_iterations`: at each step, exit when the condition fails;
otherwise run the body unless the iteration budget is exhausted. -/
def while_loop {σ : Type} (cond : σ → Bool) (body : σ → σ) :
    ℕ → σ → σ
  | 0, s => s
  | m + 1, s => if cond s then while_loop cond body m (body s) else s

/-- Modelled from the spec: the CG loop state — solution, residual and
search-direction rows plus the shared iteration counter. -/
structure CGState where
  x : List (List ℚ)
  r : List (List ℚ)
  p : List (List ℚ)
  iterations : ℕ

/-- Inner product of two rows. -/
def dotQ (a b : List ℚ) : ℚ := (List.zipWith (· * ·) a b).sum

/-- Maximum absolute entry of a row (per-cell residual norm). -/
def maxAbs (v : List ℚ) : ℚ := v.foldr (fun a m => max |a| m) 0

/-- Maximum per-batch-row residual norm. -/
def maxResidual (rows : List (List ℚ)) : ℚ := (rows.map maxAbs).foldr max 0

/-- Modelled from the spec: the CG loop continues while some cell of
some batch row has residual above `accuracy`. -/
def cgCond (accuracy : ℚ) (s : CGState) : Bool :=
  decide (accuracy < maxResidual s.r)

/-- Modelled from the spec: one standard CG iteration applied to every
batch row simultaneously, incrementing the shared iteration counter. -/
def cgBody (apply_A : List (List ℚ) → List (List ℚ)) (s : CGState) : CGState :=
  let Ap := apply_A s.p
  let alpha := List.zipWith3 (fun r p ap => dotQ r r / dotQ p ap) s.r s.p Ap
  let x' := List.zipWith3 (fun x p a => List.zipWith (fun u v => u + a * v) x p) s.x s.p alpha
  let r' := List.zipWith3 (fun r ap a => List.zipWith (fun u v => u - a * v) r ap) s.r Ap alpha
  let beta := List.zipWith (fun rn ro => dotQ rn rn / dotQ ro ro) r' s.r
  let p' := List.zipWith3 (fun rn p b => List.zipWith (fun u v => u + b * v) rn p) r' s.p beta
  ⟨x', r', p', s.iterations + 1⟩

/-- Modelled from the spec: the CG start state — the guess or the zero
vector, with residual `b - A x₀` and initial search direction equal to
the residual. -/
def cgInit (divergence : List (List ℚ)) (apply_A : List (List ℚ) → List (List ℚ))
    (guess : Option (List (List ℚ))) : CGState :=
  let x0 := match guess with
    | some g => g
    | none => divergence.map (List.map fun _ => 0)
  let r0 := List.zipWith (fun b ax => List.zipWith (fun u v => u - v) b ax)
    divergence (apply_A x0)
  ⟨x0, r0, r0, 0⟩

/-- Modelled from the spec: `conjugate_gradient` of `phi/math/blas.py`
(not among the provided sources) — run the CG loop through the backend
`while_loop` and return the solution rows with the iteration count
actually performed.  `back_prop` is forwarded to the backend loop, which
ignores it (as `SciPyBackend.while_loop` does). -/
def conjugate_gradient (divergence : List (List ℚ))
    (apply_A : List (List ℚ) → List (List ℚ)) (guess : Option (List (List ℚ)))
    (accuracy : ℚ) (max_iterations : ℕ) (back_prop : Bool) :
    List (List ℚ) × ℕ :=
  let s := while_loop (cgCond accuracy) (cgBody apply_A) max_iterations
    (cgInit divergence apply_A guess)
  (s.x, s.iterations)

/-- The matrix-vector product `A.dot(row)` of the `n × n` operator. -/
def matVec (A : ℕ → ℕ → ℚ) (n : ℕ) (v : List ℚ) : List ℚ :=
  (List.range n).map fun r => ((List.range n).map fun c => A r c * v.getD c 0).sum

/-- The batched `math.matmul(A, pressure)` of the SciPy backend:
`np.stack([A.dot(b[i]) for i in range(...)])`. -/
def apply_A_matmul (A : ℕ → ℕ → ℚ) (n : ℕ) :
    List (List ℚ) → List (List ℚ) :=
  fun rows => rows.map (matVec A n)

/-- Shallow embedding of `sparse_cg`: reshape divergence (and guess, if
given) to `(-1, prod(shape[1:]))` rows, run `conjugate_gradient` with
`apply_A = lambda pressure: math.matmul(A, pressure)`, and reshape the
result back to the divergence shape.  numpy reshape failures return
`none`. -/
def sparse_cg (divergence : Tensor) (A : ℕ → ℕ → ℚ) (max_iterations : ℕ)
    (guess : Option Tensor) (accuracy : ℚ) (back_prop : Bool := false) :
    Option (Tensor × ℕ) :=
  if 0 < (divergence.shape.drop 1).prod ∧
      (divergence.shape.drop 1).prod ∣ divergence.data.length then
    match (match guess with
      | none => some none
      | some g =>
          if (divergence.shape.drop 1).prod ∣ g.data.length then
            some (some (chunkRows (divergence.shape.drop 1).prod g.data))
          else none : Option (Option (List (List ℚ)))) with
    | none => none
    | some guess_vec =>
        let result := conjugate_gradient
          (chunkRows (divergence.shape.drop 1).prod divergence.data)
          (apply_A_matmul A (divergence.shape.drop 1).prod)
          guess_vec accuracy max_iterations back_prop
        if h : result.1.flatten.length = divergence.shape.prod then
          some (⟨divergence.shape, result.1.flatten, h⟩, result.2)
        else none
  else none

/-- Translation of `SciPyBackend.with_custom_gradient`: it returns
`function(*inputs)` and touches neither the gradient function nor the
index/naming arguments. -/
def with_custom_gradient {a b c : Type} (function : a → b) (inputs : a)
    (gradient : c) (input_index : ℕ := 0) (output_index : Option ℕ := none)
    (name_base : String := "custom_gradient_func") : b :=
  function inputs

/-- The `pressure_gradient` closure registered by `SparseCG.solve` in
non-autodiff mode: re-solve the system on the incoming gradient with
`gradient_accuracy` and the resolved `max_gradient_iterations`.  The
source binds `max_gradient_iterations` only after the
`with_custom_gradient` call, capturing the forward iteration count for
`'mirror'`; that late-bound value is the explicit `iteration`
argument here. -/
def pressure_gradient (A : ℕ → ℕ → ℚ) (cfg : SparseCGConfig) (iteration : ℕ) :
    Tensor → Option Tensor := fun grad =>
  let max_gradient_iterations := match cfg.max_gradient_iterations with
    | .mirror => iteration
    | .num n => n
  (sparse_cg grad A max_gradient_iterations none cfg.gradient_accuracy).map Prod.fst

/-- Shallow embedding of `SparseCG.solve` on the SciPy backend (where
`matches_name('SciPy')` holds, so the matrix is used as built): in
autodiff mode call `sparse_cg` directly with `back_prop=True`; otherwise
route the same call through `with_custom_gradient`, registering
`pressure_gradient` as the backward pass. -/
def SparseCG_solve (cfg : SparseCGConfig) (divergence : Tensor) (domain : FluidDomain)
    (pressure_guess : Option Tensor) : Option (Tensor × ℕ) :=
  if cfg.autodiff then
    sparse_cg divergence
      (sparse_pressure_matrix ((divergence.shape.drop 1).dropLast)
        (active_tensor domain) (accessible_tensor domain))
      cfg.max_iterations pressure_guess cfg.accuracy true
  else
    with_custom_gradient
      (fun args : Tensor × (ℕ → ℕ → ℚ) × ℕ × Option Tensor × ℚ =>
        sparse_cg args.1 args.2.1 args.2.2.1 args.2.2.2.1 args.2.2.2.2)
      (divergence,
        sparse_pressure_matrix ((divergence.shape.drop 1).dropLast)
          (active_tensor domain) (accessible_tensor domain),
        cfg.max_iterations, pressure_guess, cfg.accuracy)
      (pressure_gradient
        (sparse_pressure_matrix ((divergence.shape.drop 1).dropLast)
          (active_tensor domain) (accessible_tensor domain)) cfg)

/-! ### Shape and iteration-count lemmas for the solvers -/

theorem length_zipWith3 {α β γ δ : Type} (f : α → β → γ → δ) :
    ∀ (l1 : List α) (l2 : List β) (l3 : List γ),
      (List.zipWith3 f l1 l2 l3).length = min l1.length (min l2.length l3.length) := by
  intro l1
  induction l1 with
  | nil => intro l2 l3; cases l2 <;> cases l3 <;> simp [List.zipWith3]
  | cons a as ih =>
      intro l2 l3
      cases l2 <;> cases l3 <;> simp [List.zipWith3, ih] <;> omega

theorem mem_zipWith3 {α β γ δ : Type} (f : α → β → γ → δ) :
    ∀ (l1 : List α) (l2 : List β) (l3 : List γ) (d : δ),
      d ∈ List.zipWith3 f l1 l2 l3 →
      ∃ a ∈ l1, ∃ b ∈ l2, ∃ c ∈ l3, d = f a b c := by
  intro l1
  induction l1 with
  | nil => intro l2 l3 d h; cases l2 <;> cases l3 <;> simp [List.zipWith3] at h
  | cons a as ih =>
      intro l2 l3 d h
      cases l2 with
      | nil => simp [List.zipWith3] at h
      | cons b bs =>
          cases l3 with
          | nil => simp [List.zipWith3] at h
          | cons c cs =>
              rw [List.zipWith3] at h
              rcases List.mem_cons.1 h with rfl | h
              · exact ⟨a, by simp, b, by simp, c, by simp, rfl⟩
              · obtain ⟨a', ha', b', hb', c', hc', rfl⟩ := ih bs cs d h
                exact ⟨a', by simp [ha'], b', by simp [hb'], c', by simp [hc'], rfl⟩

theorem mem_zipWith {α β γ : Type} (f : α → β → γ) :
    ∀ (l1 : List α) (l2 : List β) (d : γ),
      d ∈ List.zipWith f l1 l2 → ∃ a ∈ l1, ∃ b ∈ l2, d = f a b := by
  intro l1
  induction l1 with
  | nil => intro l2 d h; simp at h
  | cons a as ih =>
      intro l2 d h
      cases l2 with
      | nil => simp at h
      | cons b bs =>
          rw [List.zipWith_cons_cons] at h
          rcases List.mem_cons.1 h with rfl | h
          · exact ⟨a, by simp, b, by simp, rfl⟩
          · obtain ⟨a', ha', b', hb', rfl⟩ := ih bs d h
            exact ⟨a', by simp [ha'], b', by simp [hb'], rfl⟩

theorem chunkRows_count (n : ℕ) (l : List ℚ) :
    (chunkRows n l).length = l.length / n := by
  simp [chunkRows]

theorem chunkRows_row_length (n : ℕ) (l : List ℚ) :
    ∀ r ∈ chunkRows n l, r.length = n := by
  intro r hr
  obtain ⟨k, hk, rfl⟩ := List.mem_map.1 hr
  have hkn : k < l.length / n := List.mem_range.1 hk
  have h1 : (k + 1) * n ≤ l.length / n * n := Nat.mul_le_mul_right n (by omega)
  have h2 : l.length / n * n ≤ l.length := Nat.div_mul_le_self _ _
  rw [Nat.succ_mul] at h1
  simp only [List.length_take, List.length_drop]
  omega

theorem flatten_length_of_rows (rows : List (List ℚ)) (n : ℕ)
    (h : ∀ r ∈ rows, r.length = n) : rows.flatten.length = rows.length * n := by
  induction rows with
  | nil => simp
  | cons r rs ih =>
      simp only [List.flatten_cons, List.length_append, List.length_cons]
      rw [h r (by simp), ih (fun r' hr' => h r' (by simp [hr']))]
      ring

/-- Batched row matrices of `bsz` rows of length `n`. -/
def RowsOk (bsz n : ℕ) (m : List (List ℚ)) : Prop :=
  m.length = bsz ∧ ∀ r ∈ m, r.length = n

/-- CG state whose solution, residual and direction rows all have batch
size `bsz` and row length `n`. -/
def StateOk (bsz n : ℕ) (s : CGState) : Prop :=
  RowsOk bsz n s.x ∧ RowsOk bsz n s.r ∧ RowsOk bsz n s.p

theorem chunkRows_rowsOk (n : ℕ) (l : List ℚ) :
    RowsOk (l.length / n) n (chunkRows n l) :=
  ⟨chunkRows_count n l, chunkRows_row_length n l⟩

theorem apply_A_matmul_rowsOk (A : ℕ → ℕ → ℚ) (n bsz : ℕ) (m : List (List ℚ))
    (hm : m.length = bsz) : RowsOk bsz n (apply_A_matmul A n m) := by
  constructor
  · simp [apply_A_matmul, hm]
  · intro r hr
    obtain ⟨v, _, rfl⟩ := List.mem_map.1 hr
    simp [matVec]

theorem zipWith_rows_length {f : ℚ → ℚ → ℚ} {u v : List ℚ} {n : ℕ}
    (hu : u.length = n) (hv : v.length = n) : (List.zipWith f u v).length = n := by
  rw [List.length_zipWith, hu, hv, min_self]

theorem zipWith3_combine_rowsOk (h : ℚ → ℚ → ℚ → ℚ) (l1 l2 : List (List ℚ))
    (l3 : List ℚ) (bsz n : ℕ)
    (h1l : l1.length = bsz) (h1r : ∀ r ∈ l1, r.length = n)
    (h2l : l2.length = bsz) (h2r : ∀ r ∈ l2, r.length = n)
    (h3 : l3.length = bsz) :
    RowsOk bsz n
      (List.zipWith3 (fun u v a => List.zipWith (fun p q => h p q a) u v) l1 l2 l3) := by
  constructor
  · rw [length_zipWith3, h1l, h2l, h3]; simp
  · intro r hr
    obtain ⟨u, hu, v, hv, c, _, rfl⟩ := mem_zipWith3 _ _ _ _ _ hr
    exact zipWith_rows_length (h1r u hu) (h2r v hv)

theorem cgBody_stateOk (A : ℕ → ℕ → ℚ) (n bsz : ℕ) (s : CGState)
    (hs : StateOk bsz n s) : StateOk bsz n (cgBody (apply_A_matmul A n) s) := by
  obtain ⟨⟨hxl, hxr⟩, ⟨hrl, hrr⟩, ⟨hpl, hpr⟩⟩ := hs
  have hAp : RowsOk bsz n (apply_A_matmul A n s.p) :=
    apply_A_matmul_rowsOk A n bsz s.p hpl
  have halpha : (List.zipWith3 (fun r p ap => dotQ r r / dotQ p ap) s.r s.p
      (apply_A_matmul A n s.p)).length = bsz := by
    rw [length_zipWith3, hrl, hpl, hAp.1]; simp
  have hx' := zipWith3_combine_rowsOk (fun p q a => p + a * q) s.x s.p _ bsz n
    hxl hxr hpl hpr halpha
  have hr' := zipWith3_combine_rowsOk (fun p q a => p - a * q) s.r
    (apply_A_matmul A n s.p) _ bsz n hrl hrr hAp.1 hAp.2 halpha
  have hbeta : (List.zipWith (fun rn ro => dotQ rn rn / dotQ ro ro)
      (List.zipWith3 (fun u v a => List.zipWith (fun p q => p - a * q) u v) s.r
        (apply_A_matmul A n s.p)
        (List.zipWith3 (fun r p ap => dotQ r r / dotQ p ap) s.r s.p
          (apply_A_matmul A n s.p))) s.r).length = bsz := by
    rw [List.length_zipWith, hr'.1, hrl]; simp
  have hp' := zipWith3_combine_rowsOk (fun p q a => p + a * q) _ s.p _ bsz n
    hr'.1 hr'.2 hpl hpr hbeta
  exact ⟨hx', hr', hp'⟩

theorem cgInit_stateOk (div_vec : List (List ℚ)) (A : ℕ → ℕ → ℚ) (n bsz : ℕ)
    (guess : Option (List (List ℚ))) (hdiv : RowsOk bsz n div_vec)
    (hg : ∀ g ∈ guess, RowsOk bsz n g) :
    StateOk bsz n (cgInit div_vec (apply_A_matmul A n) guess) := by
  obtain ⟨hdl, hdr⟩ := hdiv
  cases guess with
  | none =>
      have hx0 : RowsOk bsz n (div_vec.map (List.map fun _ => (0:ℚ))) := by
        constructor
        · simp [hdl]
        · intro r hr
          obtain ⟨v, hv, rfl⟩ := List.mem_map.1 hr
          simp [hdr v hv]
      have hA := apply_A_matmul_rowsOk A n bsz _ hx0.1
      have hr0 : RowsOk bsz n (List.zipWith
          (fun b ax => List.zipWith (fun u v => u - v) b ax) div_vec
          (apply_A_matmul A n (div_vec.map (List.map fun _ => (0:ℚ))))) := by
        constructor
        · rw [List.length_zipWith, hdl, hA.1, min_self]
        · intro r hr
          obtain ⟨u, hu, v, hv, rfl⟩ := mem_zipWith _ _ _ _ hr
          exact zipWith_rows_length (hdr u hu) (hA.2 v hv)
      exact ⟨hx0, hr0, hr0⟩
  | some g =>
      have hx0 : RowsOk bsz n g := hg g (by simp)
      have hA := apply_A_matmul_rowsOk A n bsz g hx0.1
      have hr0 : RowsOk bsz n (List.zipWith
          (fun b ax => List.zipWith (fun u v => u - v) b ax) div_vec
          (apply_A_matmul A n g)) := by
        constructor
        · rw [List.length_zipWith, hdl, hA.1, min_self]
        · intro r hr
          obtain ⟨u, hu, v, hv, rfl⟩ := mem_zipWith _ _ _ _ hr
          exact zipWith_rows_length (hdr u hu) (hA.2 v hv)
      exact ⟨hx0, hr0, hr0⟩

theorem iterate_stateOk (A : ℕ → ℕ → ℚ) (n bsz : ℕ) (s : CGState)
    (hs : StateOk bsz n s) (k : ℕ) :
    StateOk bsz n ((cgBody (apply_A_matmul A n))^[k] s) := by
  induction k with
  | zero => simpa using hs
  | succ k ih =>
      rw [Function.iterate_succ_apply']
      exact cgBody_stateOk A n bsz _ ih

theorem cgBody_iterations (apply_A : List (List ℚ) → List (List ℚ)) (s : CGState) (k : ℕ) :
    ((cgBody apply_A)^[k] s).iterations = s.iterations + k := by
  induction k with
  | zero => simp
  | succ k ih =>
      rw [Function.iterate_succ_apply']
      have hstep : (cgBody apply_A ((cgBody apply_A)^[k] s)).iterations =
          ((cgBody apply_A)^[k] s).iterations + 1 := rfl
      rw [hstep, ih]
      omega

theorem while_loop_iterate {σ : Type} (cond : σ → Bool) (body : σ → σ) :
    ∀ (fuel : ℕ) (s : σ), ∃ k, k ≤ fuel ∧ while_loop cond body fuel s = body^[k] s := by
  intro fuel
  induction fuel with
  | zero => intro s; exact ⟨0, le_refl 0, rfl⟩
  | succ m ih =>
      intro s
      unfold while_loop
      by_cases hc : cond s
      · rw [if_pos hc]
        obtain ⟨k, hk, heq⟩ := ih (body s)
        exact ⟨k + 1, by omega, by rw [Function.iterate_succ_apply]; exact heq⟩
      · rw [if_neg hc]
        exact ⟨0, by omega, rfl⟩

theorem dropLast_prod_dvd (l : List ℕ) : l.dropLast.prod ∣ l.prod := by
  induction l with
  | nil => simp
  | cons b bs ih =>
      cases bs with
      | nil => simp
      | cons c cs =>
          rw [List.dropLast_cons₂, List.prod_cons, List.prod_cons]
          exact mul_dvd_mul_left b ih

theorem tail_prod_dvd (s : List ℕ) : (s.drop 1).prod ∣ s.prod := by
  cases s with
  | nil => simp
  | cons a rest => simpa using Dvd.intro a rfl

theorem middle_prod_dvd (s : List ℕ) : ((s.drop 1).dropLast).prod ∣ s.prod := by
  cases s with
  | nil => simp
  | cons a rest =>
      simp only [List.drop_succ_cons, List.drop_zero, List.prod_cons]
      exact (dropLast_prod_dvd rest).trans (dvd_mul_left _ _)

theorem np_solve_p_ok (A : ℕ → ℕ → ℚ) (n : ℕ) (shape : List ℕ) (div : List ℚ)
    (hn : 0 < n) (hdvd : n ∣ div.length) (hlen : div.length = shape.prod) :
    ∃ p : Tensor, np_solve_p A n shape div = some p ∧ p.shape = shape := by
  have hrows : ∀ r ∈ (chunkRows n div).map (spsolve A n), r.length = n := by
    intro r hr
    obtain ⟨v, _, rfl⟩ := List.mem_map.1 hr
    simp [spsolve]
  have hfl : ((chunkRows n div).map (spsolve A n)).flatten.length = shape.prod := by
    rw [flatten_length_of_rows _ n hrows, List.length_map, chunkRows_count,
      Nat.div_mul_cancel hdvd, hlen]
  unfold np_solve_p
  rw [if_pos ⟨hn, hdvd⟩, dif_pos hfl]
  exact ⟨_, rfl, rfl⟩

theorem sciPy_solve_ok (divergence : Tensor) (domain : FluidDomain)
    (pressure_guess : Option Tensor)
    (hn : 0 < ((divergence.shape.drop 1).dropLast).prod) :
    ∃ p : Tensor,
      SparseSciPy_solve divergence domain pressure_guess = some (p, none) ∧
      p.shape = divergence.shape := by
  have hdvd : ((divergence.shape.drop 1).dropLast).prod ∣ divergence.data.length := by
    rw [divergence.sized]; exact middle_prod_dvd divergence.shape
  obtain ⟨p, hp, hs⟩ := np_solve_p_ok
    (sparse_pressure_matrix ((divergence.shape.drop 1).dropLast)
      (active_tensor domain) (accessible_tensor domain))
    ((divergence.shape.drop 1).dropLast).prod divergence.shape divergence.data
    hn hdvd divergence.sized
  refine ⟨p, ?_, hs⟩
  unfold SparseSciPy_solve
  rw [hp]
  rfl

theorem sparse_cg_ok (divergence : Tensor) (A : ℕ → ℕ → ℚ) (max_iterations : ℕ)
    (guess : Option Tensor) (accuracy : ℚ) (back_prop : Bool)
    (hn : 0 < (divergence.shape.drop 1).prod)
    (hg : ∀ g ∈ guess, g.data.length = divergence.data.length) :
    ∃ k, k ≤ max_iterations ∧ ∃ p : Tensor,
      sparse_cg divergence A max_iterations guess accuracy back_prop = some (p, k) ∧
      p.shape = divergence.shape ∧
      p.data = ((cgBody (apply_A_matmul A (divergence.shape.drop 1).prod))^[k]
        (cgInit (chunkRows (divergence.shape.drop 1).prod divergence.data)
          (apply_A_matmul A (divergence.shape.drop 1).prod)
          (guess.map fun g => chunkRows (divergence.shape.drop 1).prod g.data))).x.flatten := by
  have hdvd : (divergence.shape.drop 1).prod ∣ divergence.data.length := by
    rw [divergence.sized]; exact tail_prod_dvd divergence.shape
  cases guess with
  | none =>
      simp only [Option.map_none']
      obtain ⟨k, hk, hwl⟩ := while_loop_iterate (cgCond accuracy)
        (cgBody (apply_A_matmul A (divergence.shape.drop 1).prod)) max_iterations
        (cgInit (chunkRows (divergence.shape.drop 1).prod divergence.data)
          (apply_A_matmul A (divergence.shape.drop 1).prod) none)
      have hstate := iterate_stateOk A (divergence.shape.drop 1).prod
        (divergence.data.length / (divergence.shape.drop 1).prod) _
        (cgInit_stateOk (chunkRows (divergence.shape.drop 1).prod divergence.data) A
          (divergence.shape.drop 1).prod _ none (chunkRows_rowsOk _ _) (by simp)) k
      have hflat : ((cgBody (apply_A_matmul A (divergence.shape.drop 1).prod))^[k]
          (cgInit (chunkRows (divergence.shape.drop 1).prod divergence.data)
            (apply_A_matmul A (divergence.shape.drop 1).prod) none)).x.flatten.length =
          divergence.shape.prod := by
        rw [flatten_length_of_rows _ _ hstate.1.2, hstate.1.1,
          Nat.div_mul_cancel hdvd, divergence.sized]
      have h0 : (cgInit (chunkRows (divergence.shape.drop 1).prod divergence.data)
          (apply_A_matmul A (divergence.shape.drop 1).prod) none).iterations = 0 := rfl
      have hiters : ((cgBody (apply_A_matmul A (divergence.shape.drop 1).prod))^[k]
          (cgInit (chunkRows (divergence.shape.drop 1).prod divergence.data)
            (apply_A_matmul A (divergence.shape.drop 1).prod) none)).iterations = k := by
        rw [cgBody_iterations, h0]
        omega
      refine ⟨k, hk, ⟨divergence.shape, _, hflat⟩, ?_, rfl, rfl⟩
      unfold sparse_cg
      rw [if_pos ⟨hn, hdvd⟩]
      dsimp only
      have hcg : conjugate_gradient (chunkRows (divergence.shape.drop 1).prod divergence.data)
          (apply_A_matmul A (divergence.shape.drop 1).prod) none accuracy max_iterations
          back_prop =
          (((cgBody (apply_A_matmul A (divergence.shape.drop 1).prod))^[k]
            (cgInit (chunkRows (divergence.shape.drop 1).prod divergence.data)
              (apply_A_matmul A (divergence.shape.drop 1).prod) none)).x,
           ((cgBody (apply_A_matmul A (divergence.shape.drop 1).prod))^[k]
            (cgInit (chunkRows (divergence.shape.drop 1).prod divergence.data)
              (apply_A_matmul A (divergence.shape.drop 1).prod) none)).iterations) := by
        unfold conjugate_gradient
        rw [hwl]
      rw [hcg]
      dsimp only
      rw [dif_pos hflat, hiters]
  | some g =>
      simp only [Option.map_some']
      have hgd : (divergence.shape.drop 1).prod ∣ g.data.length := by
        rw [hg g (by simp)]; exact hdvd
      obtain ⟨k, hk, hwl⟩ := while_loop_iterate (cgCond accuracy)
        (cgBody (apply_A_matmul A (divergence.shape.drop 1).prod)) max_iterations
        (cgInit (chunkRows (divergence.shape.drop 1).prod divergence.data)
          (apply_A_matmul A (divergence.shape.drop 1).prod)
          (some (chunkRows (divergence.shape.drop 1).prod g.data)))
      have hgrows : RowsOk (divergence.data.length / (divergence.shape.drop 1).prod)
          (divergence.shape.drop 1).prod
          (chunkRows (divergence.shape.drop 1).prod g.data) := by
        have := chunkRows_rowsOk (divergence.shape.drop 1).prod g.data
        rwa [hg g (by simp)] at this
      have hstate := iterate_stateOk A (divergence.shape.drop 1).prod
        (divergence.data.length / (divergence.shape.drop 1).prod) _
        (cgInit_stateOk (chunkRows (divergence.shape.drop 1).prod divergence.data) A
          (divergence.shape.drop 1).prod _
          (some (chunkRows (divergence.shape.drop 1).prod g.data))
          (chunkRows_rowsOk _ _) (by simpa using hgrows)) k
      have hflat : ((cgBody (apply_A_matmul A (divergence.shape.drop 1).prod))^[k]
          (cgInit (chunkRows (divergence.shape.drop 1).prod divergence.data)
            (apply_A_matmul A (divergence.shape.drop 1).prod)
            (some (chunkRows (divergence.shape.drop 1).prod g.data)))).x.flatten.length =
          divergence.shape.prod := by
        rw [flatten_length_of_rows _ _ hstate.1.2, hstate.1.1,
          Nat.div_mul_cancel hdvd, divergence.sized]
      have h0 : (cgInit (chunkRows (divergence.shape.drop 1).prod divergence.data)
          (apply_A_matmul A (divergence.shape.drop 1).prod)
          (some (chunkRows (divergence.shape.drop 1).prod g.data))).iterations = 0 := rfl
      have hiters : ((cgBody (apply_A_matmul A (divergence.shape.drop 1).prod))^[k]
          (cgInit (chunkRows (divergence.shape.drop 1).prod divergence.data)
            (apply_A_matmul A (divergence.shape.drop 1).prod)
            (some (chunkRows (divergence.shape.drop 1).prod g.data)))).iterations = k := by
        rw [cgBody_iterations, h0]
        omega
      refine ⟨k, hk, ⟨divergence.shape, _, hflat⟩, ?_, rfl, rfl⟩
      unfold sparse_cg
      rw [if_pos ⟨hn, hdvd⟩]
      dsimp only
      rw [if_pos hgd]
      dsimp only
      have hcg : conjugate_gradient (chunkRows (divergence.shape.drop 1).prod divergence.data)
          (apply_A_matmul A (divergence.shape.drop 1).prod)
          (some (chunkRows (divergence.shape.drop 1).prod g.data)) accuracy max_iterations
          back_prop =
          (((cgBody (apply_A_matmul A (divergence.shape.drop 1).prod))^[k]
            (cgInit (chunkRows (divergence.shape.drop 1).prod divergence.data)
              (apply_A_matmul A (divergence.shape.drop 1).prod)
              (some (chunkRows (divergence.shape.drop 1).prod g.data)))).x,
           ((cgBody (apply_A_matmul A (divergence.shape.drop 1).prod))^[k]
            (cgInit (chunkRows (divergence.shape.drop 1).prod divergence.data)
              (apply_A_matmul A (divergence.shape.drop 1).prod)
              (some (chunkRows (divergence.shape.drop 1).prod g.data)))).iterations) := by
        unfold conjugate_gradient
        rw [hwl]
      rw [hcg]
      dsimp only
      rw [dif_pos hflat, hiters]

/-- Both branches of `SparseCG.solve` reduce, on the SciPy backend, to
the plain forward `sparse_cg` call: the registered `pressure_gradient`
never contributes to the result. -/
theorem solveCG_eq_sparse_cg (cfg : SparseCGConfig) (divergence : Tensor)
    (domain : FluidDomain) (pressure_guess : Option Tensor) :
    SparseCG_solve cfg divergence domain pressure_guess =
      sparse_cg divergence
        (sparse_pressure_matrix ((divergence.shape.drop 1).dropLast)
          (active_tensor domain) (accessible_tensor domain))
        cfg.max_iterations pressure_guess cfg.accuracy cfg.autodiff := by
  unfold SparseCG_solve with_custom_gradient
  cases h : cfg.autodiff
  · rw [if_neg (by simp [h])]
  · rw [if_pos (by simp [h])]

/-! ### Claims about the solvers -/

/-- C6: for a valid divergence, the CG solve returns normally for every
accuracy and iteration cap — also when the cap is hit before the
tolerance is met: the result is `some` pair (never an error path) whose
iteration count `k` is at most `max_iterations` and is exactly the
number of CG body steps performed, and whose pressure field is the
`k`-th CG iterate (the best available one), reshaped to the divergence
shape. -/
theorem C6_cg_cap_returns_iterate (divergence : Tensor) (A : ℕ → ℕ → ℚ)
    (max_iterations : ℕ) (guess : Option Tensor) (accuracy : ℚ) (back_prop : Bool)
    (bsz : ℕ) (dims : List ℕ)
    (hshape : divergence.shape = bsz :: dims ++ [1])
    (hpos : ∀ d ∈ dims, 0 < d)
    (hg : ∀ g ∈ guess, g.data.length = divergence.data.length) :
    ∃ k, k ≤ max_iterations ∧ ∃ p : Tensor,
      sparse_cg divergence A max_iterations guess accuracy back_prop = some (p, k) ∧
      p.shape = divergence.shape ∧
      p.data = ((cgBody (apply_A_matmul A (divergence.shape.drop 1).prod))^[k]
        (cgInit (chunkRows (divergence.shape.drop 1).prod divergence.data)
          (apply_A_matmul A (divergence.shape.drop 1).prod)
          (guess.map fun g => chunkRows (divergence.shape.drop 1).prod g.data))).x.flatten := by
  apply sparse_cg_ok divergence A max_iterations guess accuracy back_prop ?_ hg
  rw [hshape]
  show 0 < (dims ++ [1]).prod
  rw [List.prod_append]
  have hp := List.prod_pos hpos
  simpa using hp

/-- Witness for C6 at the concrete input: divergence of shape
`(1, 2, 1)`, all-ones matrix, cap 3, no guess. -/
theorem C6_cg_cap_returns_iterate_witness :
    ∃ k, k ≤ 3 ∧ ∃ p : Tensor,
      sparse_cg ⟨[1, 2, 1], [1, 2], rfl⟩ (fun _ _ => 1) 3 none (1/100) false = some (p, k) ∧
      p.shape = (⟨[1, 2, 1], [1, 2], rfl⟩ : Tensor).shape ∧
      p.data = ((cgBody (apply_A_matmul (fun _ _ => 1)
          ((⟨[1, 2, 1], [1, 2], rfl⟩ : Tensor).shape.drop 1).prod))^[k]
        (cgInit (chunkRows ((⟨[1, 2, 1], [1, 2], rfl⟩ : Tensor).shape.drop 1).prod
            (⟨[1, 2, 1], [1, 2], rfl⟩ : Tensor).data)
          (apply_A_matmul (fun _ _ => 1)
            ((⟨[1, 2, 1], [1, 2], rfl⟩ : Tensor).shape.drop 1).prod)
          ((none : Option Tensor).map fun g =>
            chunkRows ((⟨[1, 2, 1], [1, 2], rfl⟩ : Tensor).shape.drop 1).prod
              g.data))).x.flatten :=
  C6_cg_cap_returns_iterate ⟨[1, 2, 1], [1, 2], rfl⟩ (fun _ _ => 1) 3 none (1/100) false
    1 [2] rfl (by decide) (by simp)

/-- C7: for a valid divergence of shape `(batch, *dims, 1)` with
positive dims and a size-compatible (or absent) guess, both
`SparseSciPy.solve` and `SparseCG.solve` return normally with a
pressure field of exactly the divergence shape (the direct solver with
iteration count `None`). -/
theorem C7_shape_preservation (divergence : Tensor) (domain : FluidDomain)
    (pressure_guess : Option Tensor) (cfg : SparseCGConfig) (bsz : ℕ) (dims : List ℕ)
    (hshape : divergence.shape = bsz :: dims ++ [1]) (hpos : ∀ d ∈ dims, 0 < d)
    (hg : ∀ g ∈ pressure_guess, g.data.length = divergence.data.length) :
    (∃ p : Tensor, SparseSciPy_solve divergence domain pressure_guess = some (p, none) ∧
      p.shape = divergence.shape) ∧
    (∃ p : Tensor, ∃ k : ℕ,
      SparseCG_solve cfg divergence domain pressure_guess = some (p, k) ∧
      p.shape = divergence.shape) := by
  have hmid : (divergence.shape.drop 1).dropLast = dims := by
    rw [hshape]
    exact List.dropLast_concat
  constructor
  · apply sciPy_solve_ok divergence domain pressure_guess
    rw [hmid]
    exact List.prod_pos hpos
  · have hn2 : 0 < (divergence.shape.drop 1).prod := by
      rw [hshape]
      show 0 < (dims ++ [1]).prod
      rw [List.prod_append]
      have hp := List.prod_pos hpos
      simpa using hp
    obtain ⟨k, hk, p, hp, hs, _⟩ := sparse_cg_ok divergence
      (sparse_pressure_matrix ((divergence.shape.drop 1).dropLast)
        (active_tensor domain) (accessible_tensor domain))
      cfg.max_iterations pressure_guess cfg.accuracy cfg.autodiff hn2 hg
    refine ⟨p, k, ?_, hs⟩
    rw [solveCG_eq_sparse_cg]
    exact hp

/-- Witness for C7 at the concrete input: divergence of shape
`(1, 2, 1)`, all-ones domain masks, a non-`None` guess of the same
size, and a concrete solver configuration. -/
theorem C7_shape_preservation_witness :
    (∃ p : Tensor, SparseSciPy_solve ⟨[1, 2, 1], [1, 2], rfl⟩ ⟨fun _ => 1, fun _ => 1⟩
        (some ⟨[1, 2, 1], [3, 4], rfl⟩) = some (p, none) ∧
      p.shape = (⟨[1, 2, 1], [1, 2], rfl⟩ : Tensor).shape) ∧
    (∃ p : Tensor, ∃ k : ℕ,
      SparseCG_solve ⟨1/100, 1/100, 3, .num 3, false⟩ ⟨[1, 2, 1], [1, 2], rfl⟩
        ⟨fun _ => 1, fun _ => 1⟩ (some ⟨[1, 2, 1], [3, 4], rfl⟩) = some (p, k) ∧
      p.shape = (⟨[1, 2, 1], [1, 2], rfl⟩ : Tensor).shape) :=
  C7_shape_preservation ⟨[1, 2, 1], [1, 2], rfl⟩ ⟨fun _ => 1, fun _ => 1⟩
    (some ⟨[1, 2, 1], [3, 4], rfl⟩) ⟨1/100, 1/100, 3, .num 3, false⟩ 1 [2]
    rfl (by decide) (by simp)

/-- C8: `SparseSciPy.solve` never reads `pressure_guess` — two calls
differing only in the guess (including a non-`None` one) return the
identical result, no error is raised for a non-`None` guess, and the
iteration count returned is `None`. -/
theorem C8_sciPy_guess_ignored (divergence : Tensor) (domain : FluidDomain)
    (guess1 guess2 : Option Tensor)
    (hn : 0 < ((divergence.shape.drop 1).dropLast).prod) :
    SparseSciPy_solve divergence domain guess1 = SparseSciPy_solve divergence domain guess2 ∧
    ∃ p : Tensor, SparseSciPy_solve divergence domain guess1 = some (p, none) := by
  refine ⟨rfl, ?_⟩
  obtain ⟨p, hp, _⟩ := sciPy_solve_ok divergence domain guess1 hn
  exact ⟨p, hp⟩

/-- Witness for C8 at the concrete input: divergence of shape
`(1, 2, 1)`, a non-`None` guess versus `None`. -/
theorem C8_sciPy_guess_ignored_witness :
    SparseSciPy_solve ⟨[1, 2, 1], [1, 2], rfl⟩ ⟨fun _ => 1, fun _ => 1⟩
        (some ⟨[1, 2, 1], [3, 4], rfl⟩) =
      SparseSciPy_solve ⟨[1, 2, 1], [1, 2], rfl⟩ ⟨fun _ => 1, fun _ => 1⟩ none ∧
    ∃ p : Tensor, SparseSciPy_solve ⟨[1, 2, 1], [1, 2], rfl⟩ ⟨fun _ => 1, fun _ => 1⟩
        (some ⟨[1, 2, 1], [3, 4], rfl⟩) = some (p, none) :=
  C8_sciPy_guess_ignored ⟨[1, 2, 1], [1, 2], rfl⟩ ⟨fun _ => 1, fun _ => 1⟩
    (some ⟨[1, 2, 1], [3, 4], rfl⟩) none (by decide)

/-- C9: on the SciPy backend, `with_custom_gradient` returns
`function(*inputs)` for every supplied gradient function, and
consequently `SparseCG.solve` (in both modes, in particular the
non-autodiff mode that registers `pressure_gradient`) returns exactly
the plain forward `sparse_cg` result — the registered backward pass is
never executed. -/
theorem C9_custom_gradient_never_used :
    (∀ (a b c : Type) (function : a → b) (inputs : a) (gradient : c),
      with_custom_gradient function inputs gradient = function inputs) ∧
    (∀ (cfg : SparseCGConfig) (divergence : Tensor) (domain : FluidDomain)
      (pressure_guess : Option Tensor),
      SparseCG_solve cfg divergence domain pressure_guess =
        sparse_cg divergence
          (sparse_pressure_matrix ((divergence.shape.drop 1).dropLast)
            (active_tensor domain) (accessible_tensor domain))
          cfg.max_iterations pressure_guess cfg.accuracy cfg.autodiff) :=
  ⟨fun _ _ _ _ _ _ => rfl, solveCG_eq_sparse_cg⟩
